import Mathlib

/-!
Shallow embedding of the TextArranger line editor (textarranger.js).

The data model is a list of lines, each carrying a 1-based display
`lineNumber` and a `text` string.  Structural operations (insert via
`addLine`, delete via `deleteLine`, drag-commit rebuild) mutate a
JavaScript array with `splice` and then re-sequence all line numbers to
`index + 1`.  The view is modelled as the list of rendered rows; each row
may or may not carry a contenteditable text element, so a row is an
`Option String` when the sync logic inspects it.
-/

namespace TextArranger

/-- One line record `{ lineNumber, text }` of the document. -/
@[ext]
structure Line where
  lineNumber : Nat
  text : String
deriving DecidableEq, Repr

/-- The fresh line pushed by `addLine` before re-sequencing:
`{ lineNumber: 0, text: "" }`. -/
def blankLine : Line := ⟨0, ""⟩

/-- JavaScript `Array.prototype.splice` start-index normalisation:
a negative start counts from the end (clamped to `0`), a start beyond the
length is clamped to the length. -/
def spliceStart (i : Int) (len : Nat) : Nat :=
  if i < 0 then ((len : Int) + i).toNat else min i.toNat len

/-- Splice call lines.splice(index, 0, x): insert `x` at the normalised index. -/
def spliceInsert (i : Int) (x : Line) (ls : List Line) : List Line :=
  ls.insertIdx (spliceStart i ls.length) x

/-- Splice call lines.splice(index, 1): remove one element at the normalised index
(no element is removed when the index lands at the end). -/
def spliceDelete (i : Int) (ls : List Line) : List Line :=
  ls.eraseIdx (spliceStart i ls.length)

/-- The `forEach((line, i) => line.lineNumber = i + 1)` re-sequencing pass,
carrying the number of lines already processed. -/
def resequenceFrom (n : Nat) : List Line → List Line
  | [] => []
  | l :: ls => { l with lineNumber := n + 1 } :: resequenceFrom (n + 1) ls

/-- Re-sequence all line numbers to `index + 1`. -/
def resequence (ls : List Line) : List Line := resequenceFrom 0 ls

/-- The collection loop shared by `syncDataFromDOM`, `updateJsonOutput` and
the dragend rebuild: walk the rendered rows, and for every row that still
has its contenteditable text element push `{ lineNumber: rowIndex + 1,
text }`; rows without the element are skipped (but still advance the row
index). -/
def collectFrom (n : Nat) : List (Option String) → List Line
  | [] => []
  | none :: rest => collectFrom (n + 1) rest
  | some t :: rest => ⟨n + 1, t⟩ :: collectFrom (n + 1) rest

/-- Function syncDataFromDOM: flush the view text into the model.  The collected
rows replace `data.lines` only when at least one row was collected or the
model was already empty. -/
def syncDataFromDOM (view : List (Option String)) (m : List Line) : List Line :=
  let lines := collectFrom 0 view
  if lines.length > 0 ∨ m.length = 0 then lines else m

/-- The view produced by `render` for a document: one row per line, each
with a contenteditable element holding the line's text. -/
def renderRows (m : List Line) : List (Option String) :=
  m.map (fun l => some l.text)

/-- Operation addLine(index): flush the view, splice in a blank line, re-sequence. -/
def addLine (view : List (Option String)) (i : Int) (m : List Line) : List Line :=
  resequence (spliceInsert i blankLine (syncDataFromDOM view m))

/-- Operation deleteLine(index): flush the view, splice out one line, re-sequence. -/
def deleteLine (view : List (Option String)) (i : Int) (m : List Line) : List Line :=
  resequence (spliceDelete i (syncDataFromDOM view m))

/-- Controller state: the document plus the pending-delete index
(`pendingDeleteIndex`, `null` when idle). -/
structure ArrangerState where
  lines : List Line
  pendingDeleteIndex : Option Int
deriving DecidableEq, Repr

/-- Operation requestDelete(index): flush, then arm the confirmation prompt. -/
def requestDelete (view : List (Option String)) (i : Int) (s : ArrangerState) :
    ArrangerState :=
  { lines := syncDataFromDOM view s.lines, pendingDeleteIndex := some i }

/-- Operation cancelDelete(): flush, then discard the pending request. -/
def cancelDelete (view : List (Option String)) (s : ArrangerState) : ArrangerState :=
  { lines := syncDataFromDOM view s.lines, pendingDeleteIndex := none }

/-- Clicking the confirm button rendered for the pending row runs
`deleteLine(pendingDeleteIndex)`, which also clears the pending index;
with no pending row no confirm button is rendered, so nothing happens. -/
def confirmDelete (view : List (Option String)) (s : ArrangerState) : ArrangerState :=
  match s.pendingDeleteIndex with
  | some i => { lines := deleteLine view i s.lines, pendingDeleteIndex := none }
  | none => s

/-- A settled document: every line's number is its position plus one. -/
def numbered (ls : List Line) : Prop :=
  ∀ p, (h : p < ls.length) → (ls.get ⟨p, h⟩).lineNumber = p + 1

instance (ls : List Line) : Decidable (numbered ls) :=
  Nat.decidableBallLT ls.length _

/-- The dragend rebuild: read the rows in their current visual order and
rebuild the line list with `lineNumber = rowIndex + 1`, then store it as
the new document (no guard, unlike `syncDataFromDOM`). -/
def dragCommitRebuild (view : List (Option String)) : List Line :=
  collectFrom 0 view

/-- A structural operation together with the view state it reads. -/
inductive ArrangerOp where
  | insert (view : List (Option String)) (i : Int)
  | delete (view : List (Option String)) (i : Int)
  | dragCommit (view : List (Option String))
deriving Repr

/-- Apply one structural operation to the document. -/
def applyOp (m : List Line) : ArrangerOp → List Line
  | .insert view i => addLine view i m
  | .delete view i => deleteLine view i m
  | .dragCommit view => dragCommitRebuild view

/-- Apply a sequence of structural operations in order. -/
def applyOps (m : List Line) : List ArrangerOp → List Line
  | [] => m
  | op :: ops => applyOps (applyOp m op) ops

/-- A drag-commit only reads rows that still carry their text element:
rendered rows always do, and dragging merely reorders rendered rows. -/
def opViewOk : ArrangerOp → Prop
  | .dragCommit view => ∀ o ∈ view, o.isSome
  | _ => True

/-- The uncheck loop of handleToggle: every row other than position
`i` has its checkbox cleared (`n` counts the rows already visited). -/
def uncheckOthersFrom (i : Nat) : Nat → List Bool → List Bool
  | _, [] => []
  | n, b :: rest => (if n = i then b else false) :: uncheckOthersFrom i (n + 1) rest

/-- Function handleToggle, run after the checkbox of row `i` has changed:
nothing happens unless the row is now checked; if neither the immediate
predecessor nor the immediate successor is checked, every other row is
unchecked. -/
def handleToggle (s : List Bool) (i : Nat) : List Bool :=
  if s.getD i false = false then s
  else
    let prevChecked := decide (0 < i) && s.getD (i - 1) false
    let nextChecked := decide (i + 1 < s.length) && s.getD (i + 1) false
    if !prevChecked && !nextChecked then uncheckOthersFrom i 0 s else s

/-- A toggle event on row `i`: the checkbox flips, then handleToggle runs. -/
def toggle (s : List Bool) (i : Nat) : List Bool :=
  handleToggle (s.set i (!(s.getD i false))) i

/-- Run a sequence of toggle events. -/
def runToggles (s : List Bool) : List Nat → List Bool
  | [] => s
  | i :: rest => runToggles (toggle s i) rest

/-- Every event of the sequence is a toggle-ON: it hits a row that is
currently unchecked. -/
def allToggleOns (s : List Bool) : List Nat → Prop
  | [] => True
  | i :: rest => s.getD i false = false ∧ allToggleOns (toggle s i) rest

def decAllToggleOns (s : List Bool) : (es : List Nat) → Decidable (allToggleOns s es)
  | [] => Decidable.isTrue trivial
  | i :: rest => @instDecidableAnd _ _ inferInstance (decAllToggleOns (toggle s i) rest)

instance (s : List Bool) (es : List Nat) : Decidable (allToggleOns s es) :=
  decAllToggleOns s es

/-- The marked rows form one contiguous run: any row between two marked
rows is itself marked. -/
def contiguousSel (s : List Bool) : Prop :=
  ∀ i, i < s.length → ∀ j, j < s.length → ∀ k, k < s.length →
    i ≤ j → j ≤ k →
    s.getD i false = true → s.getD k false = true → s.getD j false = true

instance (s : List Bool) : Decidable (contiguousSel s) :=
  @Nat.decidableBallLT s.length _ (fun _ _ =>
    @Nat.decidableBallLT s.length _ (fun _ _ =>
      @Nat.decidableBallLT s.length _ (fun _ _ => inferInstance)))

/-- Bounding box of a rendered row, as read from getBoundingClientRect. -/
structure RowBox where
  top : ℚ
  height : ℚ
deriving DecidableEq, Repr

/-- Vertical midpoint of a row. -/
def midpointY (r : RowBox) : ℚ := r.top + r.height / 2

/-- One step of the reduce in getDragAfterElement: replace the current
closest when the offset is negative and strictly greater than the stored
one (the seed offset is negative infinity, modelled by `none`). -/
def gdaeFold (y : ℚ) (acc : Option (ℚ × Nat)) (idx : Nat) (r : RowBox) :
    Option (ℚ × Nat) :=
  let offset := y - r.top - r.height / 2
  match acc with
  | none => if offset < 0 then some (offset, idx) else none
  | some (o, e) => if offset < 0 ∧ o < offset then some (offset, idx) else some (o, e)

/-- The reduce of getDragAfterElement over the non-dragged rows,
threading the row index and the accumulator. -/
def gdaeGo (y : ℚ) : Nat → Option (ℚ × Nat) → List RowBox → Option (ℚ × Nat)
  | _, acc, [] => acc
  | idx, acc, r :: rs => gdaeGo y (idx + 1) (gdaeFold y acc idx r) rs

/-- Function getDragAfterElement: the index (in the non-dragged row list)
of the element the dragged block should be inserted before, or `none`. -/
def getDragAfterElement (rows : List RowBox) (y : ℚ) : Option Nat :=
  (gdaeGo y 0 none rows).map Prod.snd

/-- Spec-side anchor, following the specification's words: among the rows
whose vertical midpoint lies below the pointer, keep the first row in
model order whose distance (midpoint minus pointer y) is minimal; the
distance is returned alongside the index. -/
def anchorSpecFrom (y : ℚ) : Nat → List RowBox → Option (ℚ × Nat)
  | _, [] => none
  | n, r :: rs =>
    let d := midpointY r - y
    let rest := anchorSpecFrom y (n + 1) rs
    if 0 < d then
      match rest with
      | none => some (d, n)
      | some (d', e') => if d' < d then some (d', e') else some (d, n)
    else rest

/-- Spec-side anchor: index of the nearest row below the pointer, ties
broken in favour of the first row in model order, `none` when no row's
midpoint lies below the pointer. -/
def anchorSpec (rows : List RowBox) (y : ℚ) : Option Nat :=
  (anchorSpecFrom y 0 rows).map Prod.snd

/-- Keep the better of two candidates by offset; the left argument wins
ties (it stands for an earlier row). -/
def combineBest : Option (ℚ × Nat) → Option (ℚ × Nat) → Option (ℚ × Nat)
  | none, r => r
  | some a, none => some a
  | some (o, e), some (o', e') => if o < o' then some (o', e') else some (o, e)

/-- Right-recursive reformulation of the reduce: the first candidate with
maximal negative offset among the rows, indices starting at `n`. -/
def bestFrom (y : ℚ) : Nat → List RowBox → Option (ℚ × Nat)
  | _, [] => none
  | n, r :: rs =>
    let offset := y - r.top - r.height / 2
    let rest := bestFrom y (n + 1) rs
    if offset < 0 then combineBest (some (offset, n)) rest else rest

/-- A row participating in a drag gesture: its dragging marker and box. -/
structure DragItem where
  dragging : Bool
  box : RowBox
deriving DecidableEq, Repr

/-- Net effect of the forEach loop in handleDragOver: each dragged
element is moved in order (appendChild when the anchor is null,
insertBefore the anchor row otherwise), which places the dragged block,
in its current order, at the end of the list or immediately before the
anchor row. -/
def handleDragOverView (items : List DragItem) (y : ℚ) : List DragItem :=
  let nonDragged := items.filter (fun it => !it.dragging)
  let dragged := items.filter (fun it => it.dragging)
  match getDragAfterElement (nonDragged.map DragItem.box) y with
  | none => nonDragged ++ dragged
  | some i => nonDragged.take i ++ dragged ++ nonDragged.drop i

/-- Function render: the container is cleared first (innerHTML is set to
the empty string); the data-shape guard then logs and aborts when the
data object is missing (`none`) or has no lines field (`some none`);
otherwise one row per line is built.  The result is the new container
contents and whether the invalid-data error was logged.  The prior
container contents are wiped unconditionally, so they never survive into
the result. -/
def render (d : Option (Option (List Line))) (_prior : List (Option String)) :
    List (Option String) × Bool :=
  match d with
  | none => ([], true)
  | some none => ([], true)
  | some (some ls) => (renderRows ls, false)

/-- The three-line sample document of the specification scenarios. -/
def doc3 : List Line := [⟨1, "A"⟩, ⟨2, "B"⟩, ⟨3, "C"⟩]

theorem resequenceFrom_length (n : Nat) (ls : List Line) :
    (resequenceFrom n ls).length = ls.length := by
  induction ls generalizing n with
  | nil => rfl
  | cons l ls ih => simp [resequenceFrom, ih]

theorem resequenceFrom_get (ls : List Line) :
    ∀ (n p : Nat) (h : p < (resequenceFrom n ls).length),
      ((resequenceFrom n ls).get ⟨p, h⟩).lineNumber = n + p + 1 := by
  induction ls with
  | nil => intro n p h; simp [resequenceFrom] at h
  | cons l ls ih =>
    intro n p h
    cases p with
    | zero => simp [resequenceFrom]
    | succ q =>
      have h' : q < (resequenceFrom (n + 1) ls).length := by
        simpa [resequenceFrom] using h
      have := ih (n + 1) q h'
      simpa [resequenceFrom, Nat.add_assoc, Nat.add_comm, Nat.add_left_comm] using this

theorem numbered_resequence (ls : List Line) : numbered (resequence ls) := by
  intro p h
  simpa using resequenceFrom_get ls 0 p h

theorem resequenceFrom_eq_self (ls : List Line) :
    ∀ n, (∀ p, (h : p < ls.length) → (ls.get ⟨p, h⟩).lineNumber = n + p + 1) →
      resequenceFrom n ls = ls := by
  induction ls with
  | nil => intro n _; rfl
  | cons l ls ih =>
    intro n hn
    have h0 : l.lineNumber = n + 1 := by
      simpa using hn 0 (Nat.succ_pos _)
    have htail : resequenceFrom (n + 1) ls = ls := by
      apply ih
      intro p h
      have := hn (p + 1) (Nat.succ_lt_succ h)
      simpa [Nat.add_assoc, Nat.add_comm, Nat.add_left_comm] using this
    simp [resequenceFrom, htail]
    ext <;> simp [h0]

theorem resequence_eq_self_of_numbered {ls : List Line} (h : numbered ls) :
    resequence ls = ls := by
  apply resequenceFrom_eq_self
  intro p hp
  simpa using h p hp

theorem collectFrom_renderRows (m : List Line) :
    ∀ n, (∀ p, (h : p < m.length) → (m.get ⟨p, h⟩).lineNumber = n + p + 1) →
      collectFrom n (renderRows m) = m := by
  induction m with
  | nil => intro n _; rfl
  | cons l ls ih =>
    intro n hn
    have h0 : l.lineNumber = n + 1 := by
      simpa using hn 0 (Nat.succ_pos _)
    have htail : collectFrom (n + 1) (renderRows ls) = ls := by
      apply ih
      intro p h
      have := hn (p + 1) (Nat.succ_lt_succ h)
      simpa [Nat.add_assoc, Nat.add_comm, Nat.add_left_comm] using this
    simp [renderRows, collectFrom] at htail ⊢
    refine ⟨?_, htail⟩
    ext <;> simp [h0]

theorem sync_renderRows_of_numbered {m : List Line} (h : numbered m) :
    syncDataFromDOM (renderRows m) m = m := by
  have hc : collectFrom 0 (renderRows m) = m := by
    apply collectFrom_renderRows
    intro p hp
    simpa using h p hp
  unfold syncDataFromDOM
  rw [hc]
  rcases Nat.eq_zero_or_pos m.length with h0 | h0
  · simp [h0]
  · simp [h0]

theorem collectFrom_get_of_isSome (view : List (Option String))
    (hv : ∀ o ∈ view, o.isSome) :
    ∀ (n p : Nat) (h : p < (collectFrom n view).length),
      ((collectFrom n view).get ⟨p, h⟩).lineNumber = n + p + 1 := by
  induction view with
  | nil => intro n p h; simp [collectFrom] at h
  | cons o rest ih =>
    intro n p h
    match o, hv o (List.mem_cons_self o rest) with
    | some t, _ =>
      cases p with
      | zero => simp [collectFrom]
      | succ q =>
        have h' : q < (collectFrom (n + 1) rest).length := by
          simpa [collectFrom] using h
        have := ih (fun o ho => hv o (List.mem_cons_of_mem _ ho)) (n + 1) q h'
        simpa [collectFrom, Nat.add_assoc, Nat.add_comm, Nat.add_left_comm] using this

theorem numbered_dragCommitRebuild (view : List (Option String))
    (hv : ∀ o ∈ view, o.isSome) : numbered (dragCommitRebuild view) := by
  intro p h
  simpa using collectFrom_get_of_isSome view hv 0 p h

theorem numbered_applyOp (m : List Line) (op : ArrangerOp) (hok : opViewOk op) :
    numbered (applyOp m op) := by
  cases op with
  | insert view i => exact numbered_resequence _
  | delete view i => exact numbered_resequence _
  | dragCommit view => exact numbered_dragCommitRebuild view hok

theorem numbered_addLine (view : List (Option String)) (i : Int) (m : List Line) :
    numbered (addLine view i m) :=
  numbered_resequence _

theorem numbered_deleteLine (view : List (Option String)) (i : Int) (m : List Line) :
    numbered (deleteLine view i m) :=
  numbered_resequence _

theorem map_text_resequenceFrom (ls : List Line) :
    ∀ n, (resequenceFrom n ls).map Line.text = ls.map Line.text := by
  induction ls with
  | nil => intro n; rfl
  | cons l ls ih => intro n; simp [resequenceFrom, ih]

theorem resequence_congr_of_text :
    ∀ (l₁ l₂ : List Line), l₁.map Line.text = l₂.map Line.text →
      ∀ n, resequenceFrom n l₁ = resequenceFrom n l₂ := by
  intro l₁
  induction l₁ with
  | nil =>
    intro l₂ h n
    cases l₂ with
    | nil => rfl
    | cons b bs => simp at h
  | cons a as ih =>
    intro l₂ h n
    cases l₂ with
    | nil => simp at h
    | cons b bs =>
      simp only [List.map_cons, List.cons.injEq] at h
      simp only [resequenceFrom, ih bs h.2 (n + 1)]
      congr 1
      exact Line.ext rfl h.1

theorem map_eraseIdx_comm {α β : Type} (f : α → β) :
    ∀ (n : Nat) (l : List α), (l.eraseIdx n).map f = (l.map f).eraseIdx n := by
  intro n
  induction n with
  | zero => intro l; cases l <;> simp
  | succ k ih => intro l; cases l <;> simp [ih]

theorem spliceStart_of_nonneg_le {i : Int} {len : Nat} (h2 : 0 ≤ i)
    (h3 : i ≤ (len : Int)) : spliceStart i len = i.toNat := by
  unfold spliceStart
  rw [if_neg (not_lt.mpr h2)]
  exact min_eq_left (Int.toNat_le.mpr h3)

/-- C1: for every document and every nonempty sequence of structural
operations (insert via addLine, delete via deleteLine, drag-commit
rebuild over a fully rendered view), the lineNumber fields of the
resulting line list form the contiguous run 1..N: every line's number
equals its position plus one. -/
theorem lineNumbers_contiguous_after_ops (m : List Line) (ops : List ArrangerOp)
    (hne : ops ≠ []) (hok : ∀ op ∈ ops, opViewOk op) :
    numbered (applyOps m ops) := by
  induction ops generalizing m with
  | nil => exact absurd rfl hne
  | cons op rest ih =>
    cases rest with
    | nil =>
      have h := numbered_applyOp m op (hok op (List.mem_cons_self op []))
      simpa [applyOps] using h
    | cons op2 rest2 =>
      have hok' : ∀ o ∈ op2 :: rest2, opViewOk o :=
        fun o ho => hok o (List.mem_cons_of_mem _ ho)
      exact ih (applyOp m op) (List.cons_ne_nil op2 rest2) hok'

/-- Witness for C1 at a concrete operation sequence. -/
theorem lineNumbers_contiguous_after_ops_witness :
    numbered (applyOps []
      [ArrangerOp.insert [] 0, ArrangerOp.dragCommit [some "X", some "Y"]]) := by
  apply lineNumbers_contiguous_after_ops
  · exact List.cons_ne_nil _ _
  · intro op hop
    simp only [List.mem_cons, List.not_mem_nil, or_false] at hop
    rcases hop with rfl | rfl
    · exact trivial
    · show ∀ o ∈ [some "X", some "Y"], Option.isSome o
      decide

/-- C5: on a settled document, inserting a blank line at index i
(0 ≤ i ≤ N) with addLine and then deleting at the same index i with
deleteLine returns the document to its pre-insert content, order and
numbering. -/
theorem addLine_deleteLine_roundtrip (m : List Line) (i : Int)
    (h1 : numbered m) (h2 : 0 ≤ i) (h3 : i ≤ (m.length : Int)) :
    deleteLine (renderRows (addLine (renderRows m) i m)) i
      (addLine (renderRows m) i m) = m := by
  have hsync : syncDataFromDOM (renderRows m) m = m := sync_renderRows_of_numbered h1
  have hstart : spliceStart i m.length = i.toNat := spliceStart_of_nonneg_le h2 h3
  have hk : i.toNat ≤ m.length := Int.toNat_le.mpr h3
  have hm1 : addLine (renderRows m) i m = resequence (m.insertIdx i.toNat blankLine) := by
    unfold addLine spliceInsert
    rw [hsync, hstart]
  have hnum1 : numbered (addLine (renderRows m) i m) := numbered_addLine _ _ _
  have hsync1 : syncDataFromDOM (renderRows (addLine (renderRows m) i m))
      (addLine (renderRows m) i m) = addLine (renderRows m) i m :=
    sync_renderRows_of_numbered hnum1
  have hlen1 : (addLine (renderRows m) i m).length = m.length + 1 := by
    rw [hm1]
    show (resequenceFrom 0 _).length = _
    rw [resequenceFrom_length, List.length_insertIdx _ _ hk]
  have hstart1 : spliceStart i (addLine (renderRows m) i m).length = i.toNat := by
    rw [hlen1]
    exact spliceStart_of_nonneg_le h2 (le_trans h3 (by exact_mod_cast Nat.le_succ m.length))
  unfold deleteLine spliceDelete
  rw [hsync1, hstart1, hm1]
  have htext : ((resequence (m.insertIdx i.toNat blankLine)).eraseIdx i.toNat).map Line.text
      = ((m.insertIdx i.toNat blankLine).eraseIdx i.toNat).map Line.text := by
    rw [map_eraseIdx_comm, map_eraseIdx_comm]
    show ((resequenceFrom 0 _).map Line.text).eraseIdx _ = _
    rw [map_text_resequenceFrom]
  have hres : resequence ((resequence (m.insertIdx i.toNat blankLine)).eraseIdx i.toNat)
      = resequence ((m.insertIdx i.toNat blankLine).eraseIdx i.toNat) :=
    resequence_congr_of_text _ _ htext 0
  rw [hres, List.eraseIdx_insertIdx]
  exact resequence_eq_self_of_numbered h1

/-- Witness for C5: round-trip at index 1 of the sample document. -/
theorem addLine_deleteLine_roundtrip_witness :
    deleteLine (renderRows (addLine (renderRows doc3) 1 doc3)) 1
      (addLine (renderRows doc3) 1 doc3) = doc3 :=
  addLine_deleteLine_roundtrip doc3 1 (by decide) (by decide) (by decide)

/-- C6 (amended): on a settled document, deleteLine with a non-negative
index that is out of range (i ≥ N, which covers N = 0) leaves the
document's content, order and numbering unchanged; no error is surfaced.
Negative indices are excluded: JavaScript splice counts them from the
end of the array. -/
theorem deleteLine_out_of_range_noop (m : List Line) (i : Int)
    (h1 : numbered m) (h2 : 0 ≤ i) (h3 : (m.length : Int) ≤ i) :
    deleteLine (renderRows m) i m = m := by
  have hsync : syncDataFromDOM (renderRows m) m = m := sync_renderRows_of_numbered h1
  unfold deleteLine spliceDelete
  rw [hsync]
  have herase : m.eraseIdx (spliceStart i m.length) = m := by
    apply List.eraseIdx_of_length_le
    unfold spliceStart
    rw [if_neg (not_lt.mpr h2)]
    have hlen : m.length ≤ i.toNat := (Int.le_toNat h2).mpr h3
    exact le_min hlen le_rfl
  rw [herase]
  exact resequence_eq_self_of_numbered h1

/-- Witness for the amended C6: deleting at index 5 of the three-line
sample document changes nothing. -/
theorem deleteLine_out_of_range_noop_witness :
    deleteLine (renderRows doc3) 5 doc3 = doc3 :=
  deleteLine_out_of_range_noop doc3 5 (by decide) (by decide) (by decide)

/-- Counterexample to C6 as stated: the index -1 lies outside
0 ≤ i < N, yet deleteLine is not a no-op there — JavaScript splice
interprets -1 as the last position and removes the line "C". -/
theorem deleteLine_out_of_range_counterexample :
    (¬ (0 ≤ (-1 : Int) ∧ (-1 : Int) < (doc3.length : Int))) ∧
    deleteLine (renderRows doc3) (-1) doc3 ≠ doc3 ∧
    deleteLine (renderRows doc3) (-1) doc3 = [⟨1, "A"⟩, ⟨2, "B"⟩] := by
  decide

/-- C7 (amended): on the sample document A,B,C, requestDelete(2) followed
by confirm() deletes the line at 0-based index 2 (the line "C"), yielding
lines 1:"A", 2:"B", and returns the confirmation state to idle. -/
theorem requestDelete_confirm_scenario :
    ((confirmDelete
        (renderRows (requestDelete (renderRows doc3) 2 ⟨doc3, none⟩).lines)
        (requestDelete (renderRows doc3) 2 ⟨doc3, none⟩)).lines
      = [⟨1, "A"⟩, ⟨2, "B"⟩]) ∧
    ((confirmDelete
        (renderRows (requestDelete (renderRows doc3) 2 ⟨doc3, none⟩).lines)
        (requestDelete (renderRows doc3) 2 ⟨doc3, none⟩)).pendingDeleteIndex
      = none) := by
  decide

/-- Counterexample to C7 as stated: the scenario's claimed result keeps
"C", but indices are 0-based in the code, so requestDelete(2) + confirm()
removes "C", not "B". -/
theorem requestDelete_confirm_scenario_counterexample :
    (confirmDelete
        (renderRows (requestDelete (renderRows doc3) 2 ⟨doc3, none⟩).lines)
        (requestDelete (renderRows doc3) 2 ⟨doc3, none⟩)).lines
      ≠ [⟨1, "A"⟩, ⟨2, "C"⟩] := by
  decide

/-- C8: on a settled document, requestDelete(i) followed by cancelDelete()
leaves the line list unchanged and clears the pending delete. -/
theorem requestDelete_cancel_noop (m : List Line) (i : Int) (p0 : Option Int)
    (h1 : numbered m) (h2 : 0 ≤ i) (h3 : i < (m.length : Int)) :
    ((cancelDelete
        (renderRows (requestDelete (renderRows m) i ⟨m, p0⟩).lines)
        (requestDelete (renderRows m) i ⟨m, p0⟩)).lines = m) ∧
    ((cancelDelete
        (renderRows (requestDelete (renderRows m) i ⟨m, p0⟩).lines)
        (requestDelete (renderRows m) i ⟨m, p0⟩)).pendingDeleteIndex = none) := by
  have hsync : syncDataFromDOM (renderRows m) m = m := sync_renderRows_of_numbered h1
  refine ⟨?_, rfl⟩
  simp [cancelDelete, requestDelete, hsync]

/-- Witness for C8 on the sample document. -/
theorem requestDelete_cancel_noop_witness :
    ((cancelDelete
        (renderRows (requestDelete (renderRows doc3) 1 ⟨doc3, none⟩).lines)
        (requestDelete (renderRows doc3) 1 ⟨doc3, none⟩)).lines = doc3) ∧
    ((cancelDelete
        (renderRows (requestDelete (renderRows doc3) 1 ⟨doc3, none⟩).lines)
        (requestDelete (renderRows doc3) 1 ⟨doc3, none⟩)).pendingDeleteIndex = none) :=
  requestDelete_cancel_noop doc3 1 none (by decide) (by decide) (by decide)

theorem getD_false_of_length_le {s : List Bool} {i : Nat} (h : s.length ≤ i) :
    s.getD i false = false := by
  simp [List.getD_eq_getElem?_getD, List.getElem?_eq_none h]

theorem lt_length_of_getD_true {s : List Bool} {i : Nat}
    (h : s.getD i false = true) : i < s.length := by
  by_contra hc
  rw [getD_false_of_length_le (le_of_not_lt hc)] at h
  exact Bool.false_ne_true h

theorem getD_set_self {s : List Bool} {i : Nat} {b : Bool} (h : i < s.length) :
    (s.set i b).getD i false = b := by
  simp [List.getD_eq_getElem?_getD, List.getElem?_set_self h]

theorem getD_set_ne {s : List Bool} {i j : Nat} {b : Bool} (h : i ≠ j) :
    (s.set i b).getD j false = s.getD j false := by
  simp [List.getD_eq_getElem?_getD, List.getElem?_set_ne h]

theorem uncheckOthersFrom_getD (i : Nat) :
    ∀ (s : List Bool) (n j : Nat),
      (uncheckOthersFrom i n s).getD j false =
        if n + j = i then s.getD j false else false := by
  intro s
  induction s with
  | nil => intro n j; simp [uncheckOthersFrom]
  | cons b rest ih =>
    intro n j
    cases j with
    | zero => simp [uncheckOthersFrom]
    | succ q =>
      have hstep : n + (q + 1) = n + 1 + q := by omega
      simp only [uncheckOthersFrom, List.getD_cons_succ, ih (n + 1) q, hstep]

theorem toggle_out_of_range {s : List Bool} {i : Nat} (h : s.length ≤ i) :
    toggle s i = s := by
  unfold toggle
  rw [List.set_eq_of_length_le h]
  unfold handleToggle
  rw [if_pos (getD_false_of_length_le h)]

theorem toggle_off {s : List Bool} {i : Nat} (hs : s.getD i false = true) :
    toggle s i = s.set i false := by
  have hi : i < s.length := lt_length_of_getD_true hs
  unfold toggle
  rw [hs]
  show handleToggle (s.set i false) i = s.set i false
  unfold handleToggle
  rw [if_pos (getD_set_self hi)]

theorem toggle_on_eq {s : List Bool} {i : Nat} (hi : i < s.length)
    (hs : s.getD i false = false) :
    toggle s i =
      if (!(decide (0 < i) && s.getD (i - 1) false) &&
          !(decide (i + 1 < s.length) && s.getD (i + 1) false)) = true
      then uncheckOthersFrom i 0 (s.set i true) else s.set i true := by
  have hprev : (decide (0 < i) && (s.set i true).getD (i - 1) false) =
      (decide (0 < i) && s.getD (i - 1) false) := by
    by_cases h0 : 0 < i
    · have hne : i ≠ i - 1 := by omega
      rw [getD_set_ne hne]
    · simp [h0]
  have hnext : (decide (i + 1 < (s.set i true).length) && (s.set i true).getD (i + 1) false) =
      (decide (i + 1 < s.length) && s.getD (i + 1) false) := by
    have hne : i ≠ i + 1 := by omega
    rw [getD_set_ne hne, List.length_set]
  unfold toggle
  rw [hs]
  show handleToggle (s.set i true) i = _
  unfold handleToggle
  rw [if_neg (by rw [getD_set_self hi]; simp)]
  rw [hprev, hnext]

theorem uncheckOthersFrom_length (i : Nat) :
    ∀ (s : List Bool) (n : Nat), (uncheckOthersFrom i n s).length = s.length := by
  intro s
  induction s with
  | nil => intro n; rfl
  | cons b rest ih => intro n; simp [uncheckOthersFrom, ih]

theorem contiguous_toggle_on {s : List Bool} {i : Nat}
    (hcont : contiguousSel s) (hs : s.getD i false = false) :
    contiguousSel (toggle s i) := by
  by_cases hi : i < s.length
  case neg => rw [toggle_out_of_range (le_of_not_lt hi)]; exact hcont
  rw [toggle_on_eq hi hs]
  by_cases hcase : (decide (0 < i) && s.getD (i - 1) false) = true ∨
      (decide (i + 1 < s.length) && s.getD (i + 1) false) = true
  · -- a neighbour is marked: everything stays, row i joins the run
    have hcond : (!(decide (0 < i) && s.getD (i - 1) false) &&
        !(decide (i + 1 < s.length) && s.getD (i + 1) false)) = false := by
      rcases hcase with h | h <;> rw [h] <;>
        simp only [Bool.not_true, Bool.false_and, Bool.and_false]
    rw [hcond]
    simp only [Bool.false_eq_true, if_false]
    obtain ⟨e, he, helow, hehigh, hei⟩ :
        ∃ e, s.getD e false = true ∧ i - 1 ≤ e ∧ e ≤ i + 1 ∧ e ≠ i := by
      rcases hcase with h | h
      · rw [Bool.and_eq_true, decide_eq_true_iff] at h
        exact ⟨i - 1, h.2, le_rfl, by omega, by omega⟩
      · rw [Bool.and_eq_true, decide_eq_true_iff] at h
        exact ⟨i + 1, h.2, by omega, le_rfl, by omega⟩
    have helen : e < s.length := lt_length_of_getD_true he
    have key : ∀ x, (s.set i true).getD x false = true → x ≠ i →
        s.getD x false = true := by
      intro x hx hxi
      rwa [getD_set_ne (fun hh => hxi hh.symm)] at hx
    intro a ha b hb c hc hab hbc hA hC
    rw [List.length_set] at ha hb hc
    by_cases hbi : b = i
    · subst hbi; exact getD_set_self hi
    rw [getD_set_ne (fun hh => hbi hh.symm)]
    by_cases hai : a = i
    · by_cases hci : c = i
      · exact absurd (by omega : b = i) hbi
      · -- the run extends upward from i through the neighbour e
        have hC' := key c hC hci
        have heb : e ≤ b := by omega
        exact hcont e helen b hb c hc heb hbc he hC'
    · by_cases hci : c = i
      · -- the run extends downward to i through the neighbour e
        have hA' := key a hA hai
        have hbe : b ≤ e := by omega
        exact hcont a ha b hb e helen hab hbe hA' he
      · exact hcont a ha b hb c hc hab hbc (key a hA hai) (key c hC hci)
  · -- both neighbours unmarked: every other row is cleared
    have h1 : (decide (0 < i) && s.getD (i - 1) false) = false := by
      cases h : (decide (0 < i) && s.getD (i - 1) false) with
      | false => rfl
      | true => exact absurd (Or.inl h) hcase
    have h2 : (decide (i + 1 < s.length) && s.getD (i + 1) false) = false := by
      cases h : (decide (i + 1 < s.length) && s.getD (i + 1) false) with
      | false => rfl
      | true => exact absurd (Or.inr h) hcase
    rw [h1, h2]
    simp only [Bool.not_false, Bool.and_self, if_true]
    intro a ha b hb c hc hab hbc hA hC
    rw [uncheckOthersFrom_getD] at hA hC ⊢
    simp only [Nat.zero_add] at hA hC ⊢
    by_cases hai : a = i
    · by_cases hci : c = i
      · have hbi : b = i := by omega
        rw [if_pos hbi, hbi]
        exact getD_set_self hi
      · rw [if_neg hci] at hC
        exact absurd hC Bool.false_ne_true
    · rw [if_neg hai] at hA
      exact absurd hA Bool.false_ne_true

theorem toggle_on_isolated {s : List Bool} {i : Nat}
    (hi : i < s.length) (hs : s.getD i false = false)
    (h1 : (decide (0 < i) && s.getD (i - 1) false) = false)
    (h2 : (decide (i + 1 < s.length) && s.getD (i + 1) false) = false) :
    ∀ j, (toggle s i).getD j false = decide (j = i) := by
  intro j
  rw [toggle_on_eq hi hs, h1, h2]
  simp only [Bool.not_false, Bool.and_self, if_true]
  rw [uncheckOthersFrom_getD]
  simp only [Nat.zero_add]
  by_cases hj : j = i
  · subst hj
    rw [if_pos rfl, getD_set_self hi]
    simp
  · rw [if_neg hj]
    simp [hj]

theorem contiguous_empty (n : Nat) : contiguousSel (List.replicate n false) := by
  intro a ha b hb c hc hab hbc hA hC
  rw [List.length_replicate] at ha
  simp [List.getD_eq_getElem?_getD, List.getElem?_replicate_of_lt ha] at hA

theorem contiguous_runToggles {s : List Bool} {events : List Nat}
    (hc : contiguousSel s) (hons : allToggleOns s events) :
    contiguousSel (runToggles s events) := by
  induction events generalizing s with
  | nil => exact hc
  | cons i rest ih =>
    obtain ⟨hfst, hrest⟩ := hons
    exact ih (contiguous_toggle_on hc hfst) hrest

/-- C2: starting from an empty selection, any sequence of toggle-on
events leaves the marked set one contiguous run of row positions; and
toggling on a row whose immediate predecessor and immediate successor are
both unmarked leaves exactly that single row marked. -/
theorem selection_contiguous_toggleOn (n : Nat) (events : List Nat)
    (hons : allToggleOns (List.replicate n false) events) :
    contiguousSel (runToggles (List.replicate n false) events) ∧
    (∀ (s : List Bool) (i : Nat), i < s.length → s.getD i false = false →
      (decide (0 < i) && s.getD (i - 1) false) = false →
      (decide (i + 1 < s.length) && s.getD (i + 1) false) = false →
      ∀ j, (toggle s i).getD j false = decide (j = i)) :=
  ⟨contiguous_runToggles (contiguous_empty n) hons,
   fun _ _ hi hs h1 h2 => toggle_on_isolated hi hs h1 h2⟩

/-- Witness for C2: mark row 3, then mark the non-adjacent row 1; the
result is contiguous, and indeed exactly row 1 is marked. -/
theorem selection_contiguous_toggleOn_witness :
    contiguousSel (runToggles (List.replicate 5 false) [3, 1]) ∧
    runToggles (List.replicate 5 false) [3, 1] =
      [false, true, false, false, false] :=
  ⟨(selection_contiguous_toggleOn 5 [3, 1] (by decide)).1, by decide⟩

/-- Counterexample to C3 as stated: toggle rows 0, 1, 2 on and then
toggle row 1 off; the code removes row 1 with no re-validation and the
marked set {0, 2} is not contiguous. -/
theorem selection_toggleOff_counterexample :
    runToggles (List.replicate 3 false) [0, 1, 2, 1] = [true, false, true] ∧
    ¬ contiguousSel (runToggles (List.replicate 3 false) [0, 1, 2, 1]) := by
  decide

/-- C3 (amended): toggling off performs no re-validation; toggling off an
endpoint row of the marked run (one with no marked row strictly below it,
or none strictly above it) preserves contiguity, but toggling off an
interior row of the run can leave a non-contiguous marked set. -/
theorem contiguous_toggleOff_endpoint {s : List Bool} {i : Nat}
    (hcont : contiguousSel s) (hs : s.getD i false = true)
    (hend : (∀ j, j < i → s.getD j false = false) ∨
            (∀ j, j < s.length → i < j → s.getD j false = false)) :
    contiguousSel (toggle s i) := by
  have hi : i < s.length := lt_length_of_getD_true hs
  rw [toggle_off hs]
  intro a ha b hb c hc hab hbc hA hC
  rw [List.length_set] at ha hb hc
  have hai : a ≠ i := by
    intro hh
    rw [hh, getD_set_self hi] at hA
    exact Bool.false_ne_true hA
  have hci : c ≠ i := by
    intro hh
    rw [hh, getD_set_self hi] at hC
    exact Bool.false_ne_true hC
  rw [getD_set_ne (fun hh => hai hh.symm)] at hA
  rw [getD_set_ne (fun hh => hci hh.symm)] at hC
  by_cases hbi : b = i
  · subst hbi
    rcases hend with hlow | hhigh
    · exact absurd hA (by rw [hlow a (by omega)]; exact Bool.false_ne_true)
    · exact absurd hC (by rw [hhigh c hc (by omega)]; exact Bool.false_ne_true)
  · rw [getD_set_ne (fun hh => hbi hh.symm)]
    exact hcont a ha b hb c hc hab hbc hA hC

/-- Witness for the amended C3: toggling off row 0, an endpoint of the
run {0, 1}, leaves the contiguous set {1}. -/
theorem contiguous_toggleOff_endpoint_witness :
    contiguousSel (toggle [true, true, false] 0) :=
  contiguous_toggleOff_endpoint (by decide) (by decide)
    (Or.inl (by decide))

theorem combineBest_none_right : ∀ a : Option (ℚ × Nat), combineBest a none = a
  | none => rfl
  | some (_, _) => rfl

theorem combineBest_some_some (o o' : ℚ) (e e' : Nat) :
    combineBest (some (o, e)) (some (o', e')) =
      if o < o' then some (o', e') else some (o, e) := rfl

theorem combineBest_fold (y : ℚ) (acc : Option (ℚ × Nat)) (n : Nat) (r : RowBox)
    (rest : Option (ℚ × Nat)) :
    combineBest (gdaeFold y acc n r) rest =
      combineBest acc (if y - r.top - r.height / 2 < 0
        then combineBest (some (y - r.top - r.height / 2, n)) rest else rest) := by
  cases acc with
  | none =>
    simp only [gdaeFold]
    by_cases h : y - r.top - r.height / 2 < 0
    · rw [if_pos h, if_pos h]
      rfl
    · rw [if_neg h, if_neg h]
  | some a =>
    obtain ⟨oa, ea⟩ := a
    simp only [gdaeFold]
    by_cases h : y - r.top - r.height / 2 < 0
    · by_cases ha : oa < y - r.top - r.height / 2
      · rw [if_pos ⟨h, ha⟩, if_pos h]
        cases rest with
        | none =>
          rw [combineBest_none_right,
            combineBest_some_some oa (y - r.top - r.height / 2) ea n, if_pos ha]
        | some b =>
          obtain ⟨ob, eb⟩ := b
          rw [combineBest_some_some (y - r.top - r.height / 2) ob n eb]
          by_cases hb : y - r.top - r.height / 2 < ob
          · rw [if_pos hb, combineBest_some_some oa ob ea eb,
              if_pos (lt_trans ha hb)]
          · rw [if_neg hb,
              combineBest_some_some oa (y - r.top - r.height / 2) ea n, if_pos ha]
      · rw [if_neg (fun hand => ha hand.2), if_pos h]
        cases rest with
        | none =>
          rw [combineBest_none_right,
            combineBest_none_right (some (y - r.top - r.height / 2, n)),
            combineBest_some_some oa (y - r.top - r.height / 2) ea n, if_neg ha]
        | some b =>
          obtain ⟨ob, eb⟩ := b
          rw [combineBest_some_some (y - r.top - r.height / 2) ob n eb]
          by_cases hb : y - r.top - r.height / 2 < ob
          · rw [if_pos hb]
          · rw [if_neg hb]
            have hba : ¬ oa < ob :=
              fun hh => ha (lt_of_lt_of_le hh (le_of_not_lt hb))
            rw [combineBest_some_some oa ob ea eb, if_neg hba,
              combineBest_some_some oa (y - r.top - r.height / 2) ea n, if_neg ha]
    · rw [if_neg (fun hand => h hand.1), if_neg h]

theorem gdaeGo_eq_bestFrom (y : ℚ) :
    ∀ (rs : List RowBox) (n : Nat) (acc : Option (ℚ × Nat)),
      gdaeGo y n acc rs = combineBest acc (bestFrom y n rs) := by
  intro rs
  induction rs with
  | nil =>
    intro n acc
    rw [show bestFrom y n [] = none from rfl, combineBest_none_right]
    rfl
  | cons r rs ih =>
    intro n acc
    show gdaeGo y (n + 1) (gdaeFold y acc n r) rs = _
    rw [ih, combineBest_fold]
    rfl

theorem bestFrom_eq_neg_anchorSpecFrom (y : ℚ) :
    ∀ (rs : List RowBox) (n : Nat),
      bestFrom y n rs = (anchorSpecFrom y n rs).map (fun p => (-p.1, p.2)) := by
  intro rs
  induction rs with
  | nil => intro n; rfl
  | cons r rs ih =>
    intro n
    have hneg : y - r.top - r.height / 2 = -(midpointY r - y) := by
      unfold midpointY; ring
    simp only [bestFrom, anchorSpecFrom]
    rw [ih]
    by_cases h : 0 < midpointY r - y
    · have ho : y - r.top - r.height / 2 < 0 := by rw [hneg]; linarith
      rw [if_pos ho, if_pos h]
      cases anchorSpecFrom y (n + 1) rs with
      | none =>
        show combineBest _ none = _
        rw [combineBest_none_right]
        show some (y - r.top - r.height / 2, n) = some (-(midpointY r - y), n)
        rw [hneg]
      | some b =>
        obtain ⟨d', e'⟩ := b
        show combineBest (some (y - r.top - r.height / 2, n)) (some (-d', e')) =
          Option.map (fun p => (-p.1, p.2))
            (if d' < midpointY r - y then some (d', e')
             else some (midpointY r - y, n))
        rw [combineBest_some_some]
        by_cases hd : d' < midpointY r - y
        · have hlt : y - r.top - r.height / 2 < -d' := by rw [hneg]; linarith
          rw [if_pos hlt, if_pos hd]
          rfl
        · have hnlt : ¬ y - r.top - r.height / 2 < -d' := by
            rw [hneg]; intro hh; exact hd (by linarith)
          rw [if_neg hnlt, if_neg hd, hneg]
          rfl
    · have ho : ¬ y - r.top - r.height / 2 < 0 := by rw [hneg]; intro hh; exact h (by linarith)
      rw [if_neg ho, if_neg h]

/-- C4: the insertion-anchor computation getDragAfterElement agrees with
the spec-side anchorSpec: among the rows whose vertical midpoint lies
below the pointer it returns the first row in model order whose distance
to the pointer is minimal, and returns none when no row's midpoint lies
below the pointer; in that case handleDragOver appends the dragged rows,
in their current order, at the end of the list. -/
theorem getDragAfterElement_spec (rows : List RowBox) (items : List DragItem)
    (y : ℚ) :
    getDragAfterElement rows y = anchorSpec rows y ∧
    (getDragAfterElement
        ((items.filter (fun it => !it.dragging)).map DragItem.box) y = none →
      handleDragOverView items y =
        items.filter (fun it => !it.dragging) ++
        items.filter (fun it => it.dragging)) := by
  constructor
  · unfold getDragAfterElement anchorSpec
    rw [gdaeGo_eq_bestFrom]
    show (combineBest none _).map Prod.snd = _
    rw [show combineBest none (bestFrom y 0 rows) = bestFrom y 0 rows from rfl]
    rw [bestFrom_eq_neg_anchorSpecFrom]
    cases anchorSpecFrom y 0 rows with
    | none => rfl
    | some b => rfl
  · intro h
    simp only [handleDragOverView]
    rw [h]

/-- Witness for C4: a single dragged row with no static row below the
pointer is appended at the end. -/
theorem getDragAfterElement_spec_witness :
    getDragAfterElement [RowBox.mk 0 2] 3 = anchorSpec [RowBox.mk 0 2] 3 ∧
    handleDragOverView [DragItem.mk true (RowBox.mk 0 2)] 3 =
      [DragItem.mk true (RowBox.mk 0 2)] := by
  have h := getDragAfterElement_spec [RowBox.mk 0 2]
    [DragItem.mk true (RowBox.mk 0 2)] 3
  refine ⟨h.1, ?_⟩
  have h2 := h.2 rfl
  simpa using h2

/-- C9 (amended): for a missing data object or one without a lines field,
render logs the error and aborts before building any rows (no partial
render), but the container has already been cleared, so the result is an
empty view rather than the untouched prior view. -/
theorem render_invalid_aborts (d : Option (Option (List Line)))
    (prior : List (Option String)) (h : d = none ∨ d = some none) :
    (render d prior).1 = [] ∧ (render d prior).2 = true := by
  rcases h with rfl | rfl
  · exact ⟨rfl, rfl⟩
  · exact ⟨rfl, rfl⟩

/-- Witness for the amended C9: rendering with missing data leaves an
empty container and logs the error. -/
theorem render_invalid_aborts_witness :
    (render none [some "A"]).1 = [] ∧ (render none [some "A"]).2 = true :=
  render_invalid_aborts none [some "A"] (Or.inl rfl)

/-- Counterexample to C9 as stated: with a prior view showing one row and
a missing data object, render does not leave the prior view untouched —
the container is cleared before the validity check runs. -/
theorem render_invalid_counterexample :
    (render none [some "A"]).1 ≠ [some "A"] ∧
    (render none [some "A"]).1 = [] := by
  decide

theorem collectFrom_of_all_none {view : List (Option String)}
    (h : ∀ o ∈ view, o = none) : ∀ n, collectFrom n view = [] := by
  induction view with
  | nil => intro n; rfl
  | cons o rest ih =>
    intro n
    have ho := h o (List.mem_cons_self o rest)
    subst ho
    exact ih (fun o' ho' => h o' (List.mem_cons_of_mem _ ho')) (n + 1)

theorem collectFrom_length (view : List (Option String)) :
    ∀ n, (collectFrom n view).length =
      (view.filter (fun o => o.isSome)).length := by
  induction view with
  | nil => intro n; rfl
  | cons o rest ih =>
    intro n
    cases o with
    | none => simpa [collectFrom] using ih (n + 1)
    | some t => simpa [collectFrom] using ih (n + 1)

/-- C10: a flush (syncDataFromDOM) with a view yielding no editable rows
leaves a non-empty model unchanged; a flush never replaces a non-empty
document with an empty line list; and rows missing their editable element
are skipped individually — the collected lines are exactly one per row
that still has its element. -/
theorem syncDataFromDOM_preserves (view : List (Option String)) (m : List Line) :
    ((∀ o ∈ view, o = none) → m ≠ [] → syncDataFromDOM view m = m) ∧
    (m ≠ [] → syncDataFromDOM view m ≠ []) ∧
    (collectFrom 0 view).length = (view.filter (fun o => o.isSome)).length := by
  refine ⟨?_, ?_, collectFrom_length view 0⟩
  · intro hall hm
    unfold syncDataFromDOM
    rw [collectFrom_of_all_none hall 0]
    have hlen : m.length ≠ 0 := fun hh => hm (List.length_eq_zero.mp hh)
    simp [hlen]
  · intro hm
    unfold syncDataFromDOM
    have hlen : m.length ≠ 0 := fun hh => hm (List.length_eq_zero.mp hh)
    by_cases hc : (collectFrom 0 view).length > 0 ∨ m.length = 0
    · rw [if_pos hc]
      rcases hc with hc | hc
      · intro hh
        rw [hh] at hc
        exact Nat.lt_irrefl 0 hc
      · exact absurd hc hlen
    · rw [if_neg hc]
      exact hm

/-- Witness for C10: an all-missing view does not wipe a one-line model. -/
theorem syncDataFromDOM_preserves_witness :
    syncDataFromDOM [none, none] [⟨1, "A"⟩] = [⟨1, "A"⟩] ∧
    syncDataFromDOM [none, none] [⟨1, "A"⟩] ≠ [] :=
  ⟨(syncDataFromDOM_preserves [none, none] [⟨1, "A"⟩]).1 (by decide) (by decide),
   (syncDataFromDOM_preserves [none, none] [⟨1, "A"⟩]).2.1 (by decide)⟩

end TextArranger
